import Mathlib

/-!
Verification of the content-tree algorithms of the lamya static-site generator.

This file is a shallow embedding, in Lean 4, of the parts of the repository
that the checked properties talk about:

* `src/pygeon/content_tree.py` — the content tree (folders, pages, aggregated
  pages), `AggregatedPage.paginate`, `Folder.filter` / `Folder.filter_in_place`,
  `Folder.get`, and the `Folder.index_page` setter;
* `src/lamya/content_processing.py` — `split_front_matter`;
* `src/pygeon/site_generator.py` — the aggregation-configuration check in
  `SiteGenerator.__init__` and the local-aggregation pass of
  `SiteGenerator.aggregate_posts`.

Modelling conventions:

* Python strings are modelled as `String` or, where the proofs need character
  level induction (front matter splitting), as `List Char`;
* Python object references between the pages of one pagination chain are
  modelled as indices (chain positions) into the list of produced pages;
* machine integers do not occur: every Python integer involved is a
  non-negative list index or length, modelled as `Nat` (the single signed
  quantity, the `num_posts_per_page` argument, is modelled as `Int` because
  the source compares it with 0);
* fallible code returns `Except`.
-/

namespace Lamya

/-! ## Pagination: `AggregatedPage.paginate` (content_tree.py, lines 662-702)

The source iterates `for i in range(0, len(self.aggregated_posts),
num_posts_per_page)` and appends one `PaginatedAggregatedPage` per iteration,
carrying the slice `self.aggregated_posts[i:i+num_posts_per_page]` and a
`Pagination` record.  The cross references between the pages of the chain
(`prev_page`, `next_page` set inside the loop, `first_page` / `last_page` set
post-hoc once all pages exist) are modelled as chain positions: the page
created by the iteration with start index `i` sits at position `i / n` of the
returned list. -/

/-- The `Pagination` data struct (content_tree.py, lines 755-777).  The page
references `first_page`, `last_page`, `prev_page`, `next_page` are modelled as
chain positions (`Option Nat`); `none` models Python `None`. -/
structure Pagination where
  page_number : Nat
  max_page_number : Nat
  first_page : Option Nat
  last_page : Option Nat
  prev_page : Option Nat
  next_page : Option Nat
deriving DecidableEq

/-- A `PaginatedAggregatedPage` as produced by `paginate`: its name, the slice
of aggregated posts it carries and its `Pagination` record.  The posts are
kept polymorphic (`α`); the source fields not touched by any checked claim
(`source_path`, `source`, the copied `_front_matter` / `_raw_content` /
`_content` / `user_data`) are omitted. -/
structure PAPage (α : Type) where
  name : String
  aggregated_posts : List α
  pagination : Pagination
deriving DecidableEq

/-- Python `range(0, stop, step)` for `step ≥ 1`: the start indices
`0, step, 2*step, ...` strictly below `stop`; there are exactly
`ceil(stop / step) = (stop + step - 1) / step` of them. -/
def pyRange (stop step : Nat) : List Nat :=
  List.range' 0 ((stop + step - 1) / step) step

/-- One iteration of the `paginate` loop (content_tree.py, lines 673-687),
for the start index `i`; `M` is the total number of pages of the chain.
Field by field:

* posts: `self.aggregated_posts[i:i+num_posts_per_page]`;
* `page_number`: `i/num_posts_per_page + 1` (exact, `i` is a multiple of `n`);
* `max_page_number`: `ceil(len(self.aggregated_posts) / num_posts_per_page)`;
* `first_page` / `last_page`: set post-hoc (lines 689-691) to `pages[0]` and
  `pages[-1]`, i.e. chain positions `0` and `M - 1`;
* `prev_page`: `None if i == 0 else pages[-1]`, the page built just before,
  at chain position `i/n - 1`;
* `next_page`: set by the next iteration (`pages[-2].pagination.next_page =
  pages[-1]`, line 687) to chain position `i/n + 1` when that page exists. -/
def mkPage {α : Type} (name : String) (posts : List α) (n M i : Nat) : PAPage α :=
  ⟨name, (posts.drop i).take n,
    ⟨i / n + 1,
     (posts.length + n - 1) / n,
     some 0,
     some (M - 1),
     if i = 0 then none else some (i / n - 1),
     if i / n + 1 < M then some (i / n + 1) else none⟩⟩

/-- The list of pages produced by `AggregatedPage.paginate` (content_tree.py,
lines 672-691), before the tree is updated (lines 693-700). -/
def paginate_pages {α : Type} (name : String) (posts : List α) (n : Nat) :
    List (PAPage α) :=
  (pyRange posts.length n).map (mkPage name posts n (pyRange posts.length n).length)

/-- Errors raised by (or, for `indexError`, escaping from) `paginate`. -/
inductive PagErr where
  | paginationError (msg : String)
  | indexError
deriving DecidableEq

/-- A sibling entry in the parent folder's children list: either an original
child (identified by an object id) or one of the freshly created paginated
pages (identified by its chain position). -/
inductive Sibling where
  | orig (id : Nat)
  | newPage (chainPos : Nat)
deriving DecidableEq

/-- The whole of `AggregatedPage.paginate` (content_tree.py, lines 662-702)
including its effect on the parent, for a page that has a parent.
Returns the produced pages together with the parent folder's new children
list and (possibly) the chain position installed as the parent's new index
page.  Line by line:

* `num_posts_per_page <= 0` raises `PaginationError` (lines 669-670);
* if `self.is_index_page()`: `self.parent.index_page = pages[0]` — an
  out-of-bounds access (`IndexError`) when `pages` is empty — and the
  remaining pages are appended to the parent's children (lines 693-696);
* otherwise every page is appended to the parent's children and then
  `self.parent.children.remove(self)` removes the first occurrence of the
  page itself (lines 697-700). -/
def paginate_run {α : Type} (name : String) (posts : List α) (n : Int)
    (isIndexPage : Bool) (siblings : List Sibling) (selfId : Nat) :
    Except PagErr (List (PAPage α) × List Sibling × Option Nat) :=
  if n ≤ 0 then
    .error (.paginationError "Cannot paginate with less than 1 posts per page")
  else
    let pages := paginate_pages name posts n.toNat
    if isIndexPage then
      match pages with
      | [] => .error .indexError
      | _ :: _ =>
          .ok (pages, siblings ++ ((List.range pages.length).drop 1).map Sibling.newPage,
               some 0)
    else
      .ok (pages,
           (siblings ++ (List.range pages.length).map Sibling.newPage).erase
             (.orig selfId),
           none)

/-! ## Front matter: `split_front_matter` (content_processing.py, lines 5-36)

Python strings are modelled as `List Char` and `str.splitlines` as splitting
on the newline character (the only line terminator occurring in this code
base; Python additionally treats a handful of exotic characters as line
boundaries).  The source passes the front-matter text to `exec` to obtain a
dictionary; since two equal front-matter texts evaluate to equal
dictionaries, the model returns the front-matter text itself, next to the
content. -/

/-- Python `str.splitlines` restricted to the newline terminator: the list of
lines of a string, without a trailing empty line for a trailing newline. -/
def linesOf : List Char → List (List Char)
  | [] => []
  | c :: cs =>
      if c = '\n' then [] :: linesOf cs
      else
        match linesOf cs with
        | [] => [[c]]
        | l :: ls => (c :: l) :: ls

/-- Python `"\n".join(lines)`. -/
def intercalateNL : List (List Char) → List Char
  | [] => []
  | [l] => l
  | l :: ls => l ++ '\n' :: intercalateNL ls

/-- Python `set(line) == set(front_matter_delimiter)` for a one-character
delimiter: the line is non-empty and consists solely of the delimiter. -/
def isDelimLine (d : Char) (l : List Char) : Bool :=
  !l.isEmpty && l.all (· = d)

/-- The loop of `split_front_matter` (lines 27-31): accumulate `line + "\n"`
until the first delimiter-only line; returns the accumulated front-matter
text and, when a closing line was found, the remaining lines (from which the
source builds the content by joining with newlines). -/
def fmLoop (d : Char) : List (List Char) → List Char × Option (List (List Char))
  | [] => ([], none)
  | line :: more =>
      if isDelimLine d line then ([], some more)
      else
        let r := fmLoop d more
        (line ++ '\n' :: r.1, r.2)

/-- `split_front_matter` (content_processing.py, lines 5-36), returning the
front-matter text (which the source `exec`s into a dictionary) and the
content.  An empty source and a source whose first line is not delimiter-only
return the source unchanged with an empty front matter; without a closing
delimiter line the content is empty. -/
def split_front_matter (d : Char) (source : List Char) :
    List Char × List Char :=
  match linesOf source with
  | [] => ([], source)
  | first :: rest =>
      if isDelimLine d first then
        match fmLoop d rest with
        | (fm, some after) => (fm, intercalateNL after)
        | (fm, none) => (fm, [])
      else ([], source)

/-! ## The content tree (content_tree.py)

`Node` models the `ContentTree` class hierarchy restricted to the attributes
the checked claims touch: `Folder` (children plus optional index page, the
`Root` being the folder at the top of the tree), `PageOrPost` (with its
resolved publish date, the `site_generator_data["publish_date"]` attached by
`SiteGenerator.process_content_tree`), `AggregatedPage` (holding references
to the aggregated post nodes) and `PaginatedAggregatedPage` (whose
`pagination.page_number` is what `Folder.get` matches `pageN` tokens
against). -/

inductive Node where
  | folder (name : String) (children : List Node) (index : Option Node)
  | pageOrPost (name : String) (publish_date : Int)
  | aggregatedPage (name : String) (aggregated_posts : List Node)
  | paginatedPage (name : String) (page_number : Nat)

def nameOf : Node → String
  | .folder n _ _ => n
  | .pageOrPost n _ => n
  | .aggregatedPage n _ => n
  | .paginatedPage n _ => n

def childrenOf : Node → List Node
  | .folder _ cs _ => cs
  | _ => []

def indexOf : Node → Option Node
  | .folder _ _ idx => idx
  | _ => none

/-- Python `isinstance(x, Folder)`. -/
def isFolder : Node → Bool
  | .folder _ _ _ => true
  | _ => false

/-- Python `isinstance(x, PageOrPost)` (note `AggregatedPage` and
`PaginatedAggregatedPage` derive from `ProceduralPage`, not `PageOrPost`). -/
def isPageOrPost : Node → Bool
  | .pageOrPost _ _ => true
  | _ => false

/-- The resolved publish date `x.site_generator_data["publish_date"]`; only
ever queried on `PageOrPost` nodes. -/
def dateOf : Node → Int
  | .pageOrPost _ d => d
  | _ => 0

/-- Stable descending insertion: an element is placed before the first
element with a strictly smaller key, i.e. after every element with a greater
or equal key. -/
def insertDesc (x : Node) : List Node → List Node
  | [] => [x]
  | y :: ys => if dateOf y ≤ dateOf x then x :: y :: ys else y :: insertDesc x ys

/-- Python `sorted(nodes, reverse=True, key=lambda x:
x.site_generator_data["publish_date"])`: a stable descending sort by resolved
publish date, modelled as insertion sort. -/
def pySortedByDateDesc : List Node → List Node
  | [] => []
  | x :: xs => insertDesc x (pySortedByDateDesc xs)

/-- Python `str(parent_path / name)` for `pathlib` paths rooted at `/`. -/
def joinPath (p n : String) : String :=
  if p = "/" then p ++ n else p ++ "/" ++ n

/-- The whitelist and blacklist selection of `SiteGenerator.aggregate_posts`
(site_generator.py, lines 490-501): the blacklist filter is applied first but
a non-empty whitelist rebuilds the selection from scratch, so a non-empty
whitelist wins; with both empty everything is selected.  A folder matches a
list by name or by stringified path. -/
def selectFolder (wl bl : List String) (name path : String) : Bool :=
  if !wl.isEmpty then wl.contains name || wl.contains path
  else if !bl.isEmpty then !(bl.contains name) && !(bl.contains path)
  else true

/-- The index page created for a selected folder (site_generator.py, lines
503-507): an `AggregatedPage` named after the folder, holding the folder's
direct `PageOrPost` children sorted by publish date descending. -/
def mkAggregatedIndex (name : String) (children : List Node) : Node :=
  .aggregatedPage name (pySortedByDateDesc (children.filter isPageOrPost))

/-! The local-aggregation pass of `SiteGenerator.aggregate_posts`
(site_generator.py, lines 481-508) with pagination disabled (the default
`num_posts_per_page = -1`): every folder reached through
`content_tree.flat(include_index_pages=False)` — i.e. every folder strictly
below the root — that has no index page and passes the selection receives a
synthetic aggregated index page.  `aggStep` transforms a node whose own path
is `path`; `aggregate_posts_local` applies it to the children of the root,
which is itself never part of `flat()` and hence never aggregated here. -/

mutual
def aggStep (wl bl : List String) (path : String) : Node → Node
  | .folder n cs idx =>
      .folder n (aggStepList wl bl path cs)
        (if (idx.isNone && selectFolder wl bl n path) = true then
           some (mkAggregatedIndex n cs)
         else idx)
  | t => t
def aggStepList (wl bl : List String) (parentPath : String) : List Node → List Node
  | [] => []
  | c :: cs =>
      aggStep wl bl (joinPath parentPath (nameOf c)) c
        :: aggStepList wl bl parentPath cs
end

def aggregate_posts_local (wl bl : List String) : Node → Node
  | .folder n cs idx => .folder n (aggStepList wl bl "/" cs) idx
  | t => t

/-- Descends from a node along a list of child positions, tracking the
`pathlib` path of the reached node; `descend "/" root addr` addresses the
node at child-index path `addr` below the root together with its
stringified path. -/
def descend (p : String) (t : Node) : List Nat → Option (String × Node)
  | [] => some (p, t)
  | i :: rest =>
      match (childrenOf t)[i]? with
      | some c => descend (joinPath p (nameOf c)) c rest
      | none => none

/-- The shape of the relation between a node of the original tree and the
corresponding node of the locally aggregated tree, at path `q`;
`selectable` is false exactly for the root, which `flat()` never returns.
A folder keeps its name and its number of children, and: if it was
selectable, had no index page and passes the whitelist and blacklist
selection, its new index page is an `AggregatedPage` of the same name whose
post list is a permutation of the folder's direct `PageOrPost` children,
sorted by resolved publish date descending; otherwise its index slot is
unchanged.  Every non-folder node is unchanged. -/
def aggClaimAt (wl bl : List String) (selectable : Bool) (q : String) :
    Node → Node → Prop
  | .folder n cs idx, nd' =>
      ∃ cs' idx', nd' = .folder n cs' idx' ∧ cs'.length = cs.length ∧
        (if (selectable && idx.isNone && selectFolder wl bl n q) = true then
           ∃ ps, idx' = some (.aggregatedPage n ps) ∧
             ps.Perm (cs.filter isPageOrPost) ∧
             ps.Pairwise (fun a b => dateOf b ≤ dateOf a)
         else idx' = idx)
  | nd, nd' => nd' = nd

/-! ## `Folder.filter` and `Folder.filter_in_place` (content_tree.py,
lines 331-372)

In `filter_in_place`, a folder child is (when `recursive`, the default)
first filtered in place and then removed only if it fails the predicate and
has no remaining children; when not `recursive` it is removed as soon as it
fails the predicate.  A non-folder child is removed when it fails the
predicate.  The index page, when included, is cleared when it fails the
predicate.  `filter` deep-copies the tree and prunes the copy, leaving the
original untouched; in this pure embedding a deep copy is the value
itself. -/

mutual
def filter_in_place (f : Node → Bool) (iip recursive : Bool) : Node → Node
  | .folder n cs idx =>
      .folder n (filterChildren f iip recursive cs)
        (match idx with
         | some ip => if iip && !(f ip) then none else some ip
         | none => none)
  | t => t
def filterChildren (f : Node → Bool) (iip recursive : Bool) : List Node → List Node
  | [] => []
  | c :: cs =>
      (match c with
       | .folder _ _ _ =>
           if recursive then
             if !(f (filter_in_place f iip true c))
                && (childrenOf (filter_in_place f iip true c)).isEmpty then []
             else [filter_in_place f iip true c]
           else if !(f c) then [] else [c]
       | _ => if !(f c) then [] else [c])
      ++ filterChildren f iip recursive cs
end

/-- Python `deepcopy`: produces a tree equal to the argument; the identity in
a pure embedding. -/
def deepcopy (t : Node) : Node := t

def Folder.filter (f : Node → Bool) (iip recursive : Bool) (t : Node) : Node :=
  filter_in_place f iip recursive (deepcopy t)

/-! ## `Folder.get` (content_tree.py, lines 227-259) -/

/-- The child-search loop of `Folder.get` (lines 248-253): the first child
matching the segment by positional token, by name, or — for a
`PaginatedAggregatedPage` — by `pageN` token. -/
def findChild (firstPart : String) : List Node → Nat → Option Node
  | [], _ => none
  | c :: cs, i =>
      if ((firstPart == "\x7b" ++ toString i ++ "\x7d") || (firstPart == nameOf c)
          || (match c with
              | .paginatedPage _ pn => firstPart == "page" ++ toString pn
              | _ => false)) = true then some c
      else findChild firstPart cs (i + 1)

/-- `Folder.get`, over the segment list `Path(path).parts`: an empty list
resolves to the node itself, a leading `/` segment is skipped, and each
segment selects a child; a folder child is recursed into with the remaining
segments while any other child is returned directly — discarding whatever
segments remain.  A segment matching no child raises `LookupError`, modelled
as the error value carrying the unresolved segments. -/
def Folder.get (t : Node) : List String → Except (List String) Node
  | [] => .ok t
  | p :: rest =>
      if p = "/" then
        match rest with
        | [] => .ok t
        | fp :: r2 =>
            match findChild fp (childrenOf t) 0 with
            | some c =>
                match c with
                | .folder _ _ _ => Folder.get c r2
                | _ => .ok c
            | none => .error (p :: rest)
      else
        match findChild p (childrenOf t) 0 with
        | some c =>
            match c with
            | .folder _ _ _ => Folder.get c rest
            | _ => .ok c
        | none => .error (p :: rest)

/-! ## The `Folder.index_page` setter (content_tree.py, lines 197-209)

The setter mutates up to three objects (the receiving folder, the assigned
node, and that node's previous parent), so it is modelled against a small
heap: object ids mapped to parent, children list and index-page slot.
Absence from `parents` models `_parent is None`; absence from `indexSlots`
models `_index_page is None`. -/

def setAssoc {α : Type} (l : List (Nat × α)) (k : Nat) (v : α) : List (Nat × α) :=
  (k, v) :: l.filter (fun p => p.1 != k)

structure Heap where
  parents : List (Nat × Nat)
  childLists : List (Nat × List Nat)
  indexSlots : List (Nat × Nat)

inductive PyErr where
  | attributeError
  | valueError
deriving DecidableEq

/-- Lines 208-209 of the setter: `self._index_page = new_index_page;
new_index_page._parent = self`. -/
def finishAssign (h : Heap) (self ip : Nat) : Heap :=
  ⟨setAssoc h.parents ip self, h.childLists, setAssoc h.indexSlots self ip⟩

/-- The `index_page` setter invoked with Python `None` (as in
`new_index_page.parent.index_page = None`, line 205): its first step
`new_index_page.parent` dereferences `None` and raises `AttributeError`. -/
def setIndexPageNone : Except PyErr Heap :=
  .error .attributeError

/-- The `Folder.index_page` setter (lines 197-209) assigning `newIp` to the
folder `self`.  If the assigned node has a parent and is that parent's index
page, line 205 re-enters the setter with `None` (see `setIndexPageNone`) and
the error propagates; if it is a normal child, it is removed from the old
parent's children (`list.remove` raising `ValueError` when absent); then the
slot and the back pointer are written. -/
def setIndexPage (h : Heap) (self : Nat) (newIp : Option Nat) : Except PyErr Heap :=
  match newIp with
  | none => setIndexPageNone
  | some ip =>
      match h.parents.lookup ip with
      | some par =>
          if h.indexSlots.lookup par = some ip then
            match setIndexPageNone with
            | .error e => .error e
            | .ok h2 => .ok (finishAssign h2 self ip)
          else
            match h.childLists.lookup par with
            | some cs =>
                if ip ∈ cs then
                  .ok (finishAssign
                    ⟨h.parents, setAssoc h.childLists par (cs.erase ip), h.indexSlots⟩
                    self ip)
                else .error .valueError
            | none => .error .valueError
      | none => .ok (finishAssign h self ip)

/-! ## The aggregation configuration check of `SiteGenerator.__init__`
(site_generator.py, lines 302-307) -/

/-- The only whitelist-against-blacklist validation performed anywhere in
`SiteGenerator`: the constructor raises `AggregateError` when both the LOCAL
whitelist and blacklist are non-empty; the global pair is never checked
(neither in the constructor nor in `aggregate_posts`, lines 513-527). -/
def checkAggregateConfig (locally_aggregate_whitelist locally_aggregate_blacklist
    globally_aggregate_whitelist globally_aggregate_blacklist : List String) :
    Except String Unit :=
  if !locally_aggregate_whitelist.isEmpty
      && !locally_aggregate_blacklist.isEmpty then
    .error "AggregateError"
  else .ok ()

end Lamya

namespace Lamya

/-! ## Helper lemmas: pagination -/

theorem range'_shift (c : Nat) : ∀ (s t step : Nat),
    List.range' (s + t) c step = (List.range' s c step).map (· + t) := by
  induction c with
  | zero => intro s t step; simp
  | succ c ih =>
      intro s t step
      rw [List.range'_succ, List.range'_succ, List.map_cons, ← ih]
      have : s + t + step = s + step + t := by omega
      rw [this]

theorem flatten_slices {α : Type} (n : Nat) (c : Nat) :
    ∀ (posts : List α),
      ((List.range' 0 c n).map (fun i => (posts.drop i).take n)).flatten
        = posts.take (c * n) := by
  induction c with
  | zero => intro posts; simp
  | succ c ih =>
      intro posts
      have h1 : List.range' 0 (c + 1) n = 0 :: List.range' (0 + n) c n :=
        List.range'_succ 0 c n
      rw [h1, range'_shift, List.map_cons, List.map_map, List.flatten_cons]
      have hfun : ((fun i => (posts.drop i).take n) ∘ (· + n))
          = (fun i => ((posts.drop n).drop i).take n) := by
        funext i
        simp only [Function.comp, List.drop_drop]
        rw [Nat.add_comm]
      rw [hfun, ih (posts.drop n), List.drop_zero, ← List.take_add]
      have : n + c * n = (c + 1) * n := by ring
      rw [this]

theorem length_paginate_pages {α : Type} (name : String) (posts : List α) (n : Nat) :
    (paginate_pages name posts n).length = (posts.length + n - 1) / n := by
  simp [paginate_pages, pyRange]

theorem get_paginate_pages {α : Type} (name : String) (posts : List α) (n : Nat)
    (j : Nat) (h : j < (paginate_pages name posts n).length) :
    (paginate_pages name posts n).get ⟨j, h⟩
      = mkPage name posts n ((posts.length + n - 1) / n) (n * j) := by
  have h' : j < (pyRange posts.length n).length := by
    simpa [paginate_pages] using h
  simp only [paginate_pages, List.get_eq_getElem, List.getElem_map]
  have : (pyRange posts.length n)[j] = n * j := by
    simp [pyRange, List.getElem_range']
  rw [this]
  simp [pyRange]

theorem ceil_mul_ge (L n : Nat) (hn : 1 ≤ n) : L ≤ n * ((L + n - 1) / n) := by
  have hd := Nat.div_add_mod (L + n - 1) n
  have hm : (L + n - 1) % n < n := Nat.mod_lt _ hn
  omega

theorem paginate_pages_nil {α : Type} (name : String) (n : Nat) :
    paginate_pages name ([] : List α) n = [] := by
  have h0 : (n - 1) / n = 0 := by
    rcases Nat.eq_zero_or_pos n with h | h
    · subst h; rfl
    · exact Nat.div_eq_of_lt (by omega)
  simp [paginate_pages, pyRange, h0]

/-! ## Claims C1, C2, C10: pagination -/

/-- Claim C1: for every post list and every page size of at least 1,
`paginate` produces pages whose post slices are consecutive fixed-size chunks
of the list — every slice non-empty and of length at most N, every slice but
the last of length exactly N — and concatenating the slices in page order
reproduces the original post list exactly, with no loss, no duplication, and
order preserved. -/
theorem claim_C1 {α : Type} (name : String) (posts : List α) (n : Nat) (hn : 1 ≤ n) :
    ((paginate_pages name posts n).map (fun p => p.aggregated_posts)).flatten = posts ∧
    (∀ j (h : j < (paginate_pages name posts n).length),
      1 ≤ ((paginate_pages name posts n).get ⟨j, h⟩).aggregated_posts.length ∧
      ((paginate_pages name posts n).get ⟨j, h⟩).aggregated_posts.length ≤ n ∧
      (j + 1 < (paginate_pages name posts n).length →
        ((paginate_pages name posts n).get ⟨j, h⟩).aggregated_posts.length = n)) := by
  constructor
  · have hmaps : (paginate_pages name posts n).map (fun p => p.aggregated_posts)
        = (List.range' 0 ((posts.length + n - 1) / n) n).map
            (fun i => (posts.drop i).take n) := by
      simp [paginate_pages, pyRange, List.map_map, Function.comp, mkPage]
    rw [hmaps, flatten_slices]
    apply List.take_of_length_le
    have := ceil_mul_ge posts.length n hn
    have hc : (posts.length + n - 1) / n * n = n * ((posts.length + n - 1) / n) :=
      Nat.mul_comm _ _
    omega
  · intro j h
    rw [get_paginate_pages]
    have hM : j < (posts.length + n - 1) / n := by
      rwa [length_paginate_pages] at h
    have hq : n * ((posts.length + n - 1) / n) ≤ posts.length + n - 1 := by
      rw [Nat.mul_comm]
      exact Nat.div_mul_le_self _ _
    have hj1 : n * (j + 1) ≤ n * ((posts.length + n - 1) / n) :=
      Nat.mul_le_mul_left n hM
    have hexp : n * (j + 1) = n * j + n := by ring
    have hlen : ((posts.drop (n * j)).take n).length
        = min n (posts.length - n * j) := by
      simp [List.length_take, List.length_drop]
    refine ⟨?_, ?_, ?_⟩
    · show 1 ≤ ((posts.drop (n * j)).take n).length
      rw [hlen]; omega
    · show ((posts.drop (n * j)).take n).length ≤ n
      rw [hlen]; omega
    · intro hj2
      rw [length_paginate_pages] at hj2
      have hj3 : n * (j + 2) ≤ n * ((posts.length + n - 1) / n) :=
        Nat.mul_le_mul_left n hj2
      have hexp2 : n * (j + 2) = n * j + n + n := by ring
      show ((posts.drop (n * j)).take n).length = n
      rw [hlen]; omega

theorem claim_C1_witness :
    1 ≤ 2 ∧
    (((paginate_pages "x" [10, 20, 30, 40, 50] 2).map
        (fun p => p.aggregated_posts)).flatten = [10, 20, 30, 40, 50] ∧
    (∀ j (h : j < (paginate_pages "x" [10, 20, 30, 40, 50] 2).length),
      1 ≤ ((paginate_pages "x" [10, 20, 30, 40, 50] 2).get ⟨j, h⟩).aggregated_posts.length ∧
      ((paginate_pages "x" [10, 20, 30, 40, 50] 2).get ⟨j, h⟩).aggregated_posts.length ≤ 2 ∧
      (j + 1 < (paginate_pages "x" [10, 20, 30, 40, 50] 2).length →
        ((paginate_pages "x" [10, 20, 30, 40, 50] 2).get ⟨j, h⟩).aggregated_posts.length = 2))) :=
  ⟨by decide, claim_C1 "x" [10, 20, 30, 40, 50] 2 (by decide)⟩

/-- Claim C2: every pagination chain of length M produced by `paginate` is a
consistent doubly-linked chain: the page at chain position j carries page
number j+1, maximum page number M, first page at position 0, last page at
position M-1, its previous-page reference points to position j-1 (null for
the first page) and its next-page reference to position j+1 (null for the
last page). -/
theorem claim_C2 {α : Type} (name : String) (posts : List α) (n : Nat) (hn : 1 ≤ n)
    (j : Nat) (h : j < (paginate_pages name posts n).length) :
    ((paginate_pages name posts n).get ⟨j, h⟩).pagination.page_number = j + 1 ∧
    ((paginate_pages name posts n).get ⟨j, h⟩).pagination.max_page_number
      = (paginate_pages name posts n).length ∧
    ((paginate_pages name posts n).get ⟨j, h⟩).pagination.first_page = some 0 ∧
    ((paginate_pages name posts n).get ⟨j, h⟩).pagination.last_page
      = some ((paginate_pages name posts n).length - 1) ∧
    ((paginate_pages name posts n).get ⟨j, h⟩).pagination.prev_page
      = (if j = 0 then none else some (j - 1)) ∧
    ((paginate_pages name posts n).get ⟨j, h⟩).pagination.next_page
      = (if j + 1 < (paginate_pages name posts n).length then some (j + 1)
         else none) := by
  rw [get_paginate_pages, length_paginate_pages]
  have hdiv : n * j / n = j := Nat.mul_div_cancel_left j hn
  refine ⟨?_, ?_, rfl, rfl, ?_, ?_⟩
  · show n * j / n + 1 = j + 1
    rw [hdiv]
  · rfl
  · show (if n * j = 0 then none else some (n * j / n - 1))
        = (if j = 0 then none else some (j - 1))
    rcases Nat.eq_zero_or_pos j with hj | hj
    · subst hj; simp
    · have hnz : n * j ≠ 0 := by positivity
      rw [if_neg hnz, if_neg (by omega), hdiv]
  · show (if n * j / n + 1 < (posts.length + n - 1) / n
          then some (n * j / n + 1) else none)
        = (if j + 1 < (posts.length + n - 1) / n then some (j + 1) else none)
    rw [hdiv]

theorem claim_C2_witness :
    (1 ≤ 2 ∧ 1 < (paginate_pages "x" [10, 20, 30, 40, 50] 2).length) ∧
    (((paginate_pages "x" [10, 20, 30, 40, 50] 2).get
        ⟨1, by decide⟩).pagination.page_number = 2 ∧
    ((paginate_pages "x" [10, 20, 30, 40, 50] 2).get
        ⟨1, by decide⟩).pagination.max_page_number
      = (paginate_pages "x" [10, 20, 30, 40, 50] 2).length ∧
    ((paginate_pages "x" [10, 20, 30, 40, 50] 2).get
        ⟨1, by decide⟩).pagination.first_page = some 0 ∧
    ((paginate_pages "x" [10, 20, 30, 40, 50] 2).get
        ⟨1, by decide⟩).pagination.last_page
      = some ((paginate_pages "x" [10, 20, 30, 40, 50] 2).length - 1) ∧
    ((paginate_pages "x" [10, 20, 30, 40, 50] 2).get
        ⟨1, by decide⟩).pagination.prev_page = (if 1 = 0 then none else some 0) ∧
    ((paginate_pages "x" [10, 20, 30, 40, 50] 2).get
        ⟨1, by decide⟩).pagination.next_page
      = (if 1 + 1 < (paginate_pages "x" [10, 20, 30, 40, 50] 2).length
         then some (1 + 1) else none)) :=
  ⟨⟨by decide, by decide⟩, claim_C2 "x" [10, 20, 30, 40, 50] 2 (by decide) 1 (by decide)⟩

/-- Claim C10: paginating a page whose aggregated post list is empty with a
page size of at least 1 never raises `PaginationError` (despite that error's
documentation naming the no-posts case): when the page is not its parent's
index page the call returns an empty page list and removes the page from the
parent's children; when it is the index page the call fails with an
out-of-bounds access on the empty list of generated pages. -/
theorem claim_C10 {α : Type} (name : String) (n : Int) (hn : 1 ≤ n)
    (isIndexPage : Bool) (siblings : List Sibling) (selfId : Nat) :
    (∀ msg, paginate_run name ([] : List α) n isIndexPage siblings selfId
        ≠ .error (.paginationError msg)) ∧
    (isIndexPage = false →
      paginate_run name ([] : List α) n isIndexPage siblings selfId
        = .ok ([], siblings.erase (.orig selfId), none)) ∧
    (isIndexPage = true →
      paginate_run name ([] : List α) n isIndexPage siblings selfId
        = .error .indexError) := by
  have hng : ¬ n ≤ 0 := by omega
  have hnil : paginate_pages name ([] : List α) n.toNat = [] :=
    paginate_pages_nil name n.toNat
  refine ⟨?_, ?_, ?_⟩
  · intro msg
    cases isIndexPage <;> simp [paginate_run, hng, hnil]
  · intro hidx
    subst hidx
    simp [paginate_run, hng, hnil]
  · intro hidx
    subst hidx
    simp [paginate_run, hng, hnil]

theorem claim_C10_witness :
    (1 : Int) ≤ 1 ∧
    ((∀ msg, paginate_run "home" ([] : List Nat) 1 false [Sibling.orig 7, Sibling.orig 9] 7
        ≠ .error (.paginationError msg)) ∧
    (false = false →
      paginate_run "home" ([] : List Nat) 1 false [Sibling.orig 7, Sibling.orig 9] 7
        = .ok ([], [Sibling.orig 7, Sibling.orig 9].erase (.orig 7), none)) ∧
    (false = true →
      paginate_run "home" ([] : List Nat) 1 false [Sibling.orig 7, Sibling.orig 9] 7
        = .error .indexError)) :=
  ⟨by decide, claim_C10 "home" 1 (by decide) false [Sibling.orig 7, Sibling.orig 9] 7⟩

end Lamya

namespace Lamya

/-! ## Helper lemmas: front matter -/

theorem linesOf_cons_newline (cs : List Char) :
    linesOf ('\n' :: cs) = [] :: linesOf cs := by
  simp [linesOf]

theorem linesOf_cons_ne (c : Char) (cs : List Char) (hc : c ≠ '\n') :
    linesOf (c :: cs)
      = match linesOf cs with
        | [] => [[c]]
        | l :: ls => (c :: l) :: ls := by
  simp [linesOf, hc]

theorem mem_linesOf_no_newline (s : List Char) :
    ∀ l ∈ linesOf s, '\n' ∉ l := by
  induction s with
  | nil => intro l hl; simp [linesOf] at hl
  | cons c cs ih =>
      intro l hl
      by_cases hc : c = '\n'
      · subst hc
        rw [linesOf_cons_newline] at hl
        rcases List.mem_cons.mp hl with h | h
        · subst h; simp
        · exact ih l h
      · rw [linesOf_cons_ne c cs hc] at hl
        rcases hll : linesOf cs with _ | ⟨hd, tl⟩
        all_goals rw [hll] at hl
        · simp only [List.mem_singleton] at hl
          subst hl
          simp only [List.mem_singleton, List.mem_cons, List.not_mem_nil, or_false]
          exact fun h => hc h.symm
        · simp only [List.mem_cons] at hl
          rcases hl with h | h
          · subst h
            intro hmem
            rcases List.mem_cons.mp hmem with h1 | h1
            · exact hc h1.symm
            · exact ih hd (by rw [hll]; exact List.mem_cons_self _ _) h1
          · exact ih l (by rw [hll]; exact List.mem_cons.mpr (Or.inr h))

theorem linesOf_append_newline (l : List Char) (rest : List Char)
    (h : '\n' ∉ l) : linesOf (l ++ '\n' :: rest) = l :: linesOf rest := by
  induction l with
  | nil => simp [linesOf]
  | cons c cs ih =>
      have hc : c ≠ '\n' := fun hcc => h (by rw [hcc]; exact List.mem_cons_self _ _)
      have hcs : '\n' ∉ cs := fun hm => h (List.mem_cons.mpr (Or.inr hm))
      rw [List.cons_append, linesOf_cons_ne c _ hc, ih hcs]

theorem linesOf_eq_nil (s : List Char) : linesOf s = [] ↔ s = [] := by
  cases s with
  | nil => simp [linesOf]
  | cons c cs =>
      constructor
      · intro h
        by_cases hc : c = '\n'
        · subst hc; rw [linesOf_cons_newline] at h; simp at h
        · rw [linesOf_cons_ne c cs hc] at h
          rcases hll : linesOf cs with _ | ⟨hd, tl⟩ <;> rw [hll] at h <;> simp at h
      · intro h; exact absurd h (List.cons_ne_nil c cs)

theorem intercalateNL_cons_cons (c : Char) (l : List Char) (ls : List (List Char)) :
    intercalateNL ((c :: l) :: ls) = c :: intercalateNL (l :: ls) := by
  cases ls <;> rfl

theorem intercalateNL_linesOf (s : List Char) (h : s.getLast? ≠ some '\n') :
    intercalateNL (linesOf s) = s := by
  induction s with
  | nil => rfl
  | cons c cs ih =>
      have hlast : cs ≠ [] → cs.getLast? ≠ some '\n' := by
        intro hcs_ne hl
        apply h
        cases cs with
        | nil => exact absurd rfl hcs_ne
        | cons b l => rw [List.getLast?_cons_cons]; exact hl
      by_cases hc : c = '\n'
      · subst hc
        have hcs_ne : cs ≠ [] := by intro he; subst he; simp at h
        rcases hll : linesOf cs with _ | ⟨hd, tl⟩
        · exact absurd ((linesOf_eq_nil cs).mp hll) hcs_ne
        · rw [linesOf_cons_newline, hll]
          have he : intercalateNL ([] :: hd :: tl) = '\n' :: intercalateNL (hd :: tl) := rfl
          rw [he, ← hll, ih (hlast hcs_ne)]
      · rw [linesOf_cons_ne c cs hc]
        rcases hll : linesOf cs with _ | ⟨hd, tl⟩
        · have he : cs = [] := (linesOf_eq_nil cs).mp hll
          subst he
          rfl
        · have hcs_ne : cs ≠ [] := by
            intro he; subst he; simp [linesOf] at hll
          rw [intercalateNL_cons_cons, ← hll, ih (hlast hcs_ne)]

theorem fmLoop_close (d : Char) (rest : List (List Char))
    (h : ∃ l ∈ rest, isDelimLine d l = true) :
    ∃ after, (fmLoop d rest).2 = some after := by
  induction rest with
  | nil => simp at h
  | cons line more ih =>
      by_cases hline : isDelimLine d line = true
      · exact ⟨more, by simp [fmLoop, hline]⟩
      · obtain ⟨l, hl, hdl⟩ := h
        rcases List.mem_cons.mp hl with he | he
        · exact absurd (he ▸ hdl) hline
        · obtain ⟨after, hafter⟩ := ih ⟨l, he, hdl⟩
          exact ⟨after, by simp [fmLoop, hline]; exact hafter⟩

theorem fmLoop_roundtrip (d : Char) (dl body : List Char)
    (hdl : isDelimLine d dl = true) (hdl_nn : '\n' ∉ dl) :
    ∀ rest : List (List Char), (∀ l ∈ rest, '\n' ∉ l) →
      ∀ fm after, fmLoop d rest = (fm, some after) →
        fmLoop d (linesOf (fm ++ dl ++ '\n' :: body)) = (fm, some (linesOf body)) := by
  intro rest
  induction rest with
  | nil => intro _ fm after h; simp [fmLoop] at h
  | cons line more ih =>
      intro hnn fm after h
      by_cases hline : isDelimLine d line = true
      · simp only [fmLoop, if_pos hline, Prod.mk.injEq] at h
        obtain ⟨h1, _⟩ := h
        subst h1
        rw [List.nil_append, linesOf_append_newline dl _ hdl_nn]
        simp [fmLoop, hdl]
      · simp only [fmLoop, if_neg hline, Prod.mk.injEq] at h
        obtain ⟨h1, h2⟩ := h
        have hmore := ih (fun l hl => hnn l (List.mem_cons.mpr (Or.inr hl)))
          (fmLoop d more).1 after (Prod.ext rfl h2)
        subst h1
        have hassoc : (line ++ '\n' :: (fmLoop d more).1) ++ dl ++ '\n' :: body
            = line ++ '\n' :: ((fmLoop d more).1 ++ dl ++ '\n' :: body) := by
          simp
        rw [hassoc,
          linesOf_append_newline line _ (hnn line (List.mem_cons_self _ _))]
        simp only [fmLoop, if_neg hline]
        rw [hmore]

/-! ## Claim C5: front matter round trip -/

/-- Claim C5 counterexample: the source text consisting of the lines `+`,
`x=1`, `+`, `a` and a trailing empty line has front matter (delimiter-only
first line, a later closing delimiter-only line), and the text reassembled
per the claim as delimiter line, front-matter text, delimiter line, body is
exactly the shorter text with the lines `+`, `x=1`, `+`, `a` — yet
re-splitting it yields the same front-matter text (hence the same parsed
map) but a different body: the original body keeps its trailing newline, the
re-split one loses it.  The claim as stated is therefore false. -/
theorem claim_C5_counterexample :
    isDelimLine '+' ((linesOf ("+\nx=1\n+\na\n\n").toList).headD []) = true ∧
    ((linesOf ("+\nx=1\n+\na\n\n").toList).tail.any
        (fun l => isDelimLine '+' l)) = true ∧
    ("+\nx=1\n+\na\n").toList
      = ['+'] ++ '\n' :: ((split_front_matter '+' ("+\nx=1\n+\na\n\n").toList).1
          ++ ['+'] ++ '\n' :: (split_front_matter '+' ("+\nx=1\n+\na\n\n").toList).2) ∧
    (split_front_matter '+' ("+\nx=1\n+\na\n").toList).1
      = (split_front_matter '+' ("+\nx=1\n+\na\n\n").toList).1 ∧
    (split_front_matter '+' ("+\nx=1\n+\na\n").toList).2
      ≠ (split_front_matter '+' ("+\nx=1\n+\na\n\n").toList).2 :=
  ⟨by decide, by decide, by decide, by decide, by decide⟩

/-- Claim C5 as amended: for every input that had front matter (first line
delimiter-only, a later closing delimiter-only line) whose body does not end
in a newline, splitting the text reassembled as delimiter line plus
front-matter text plus delimiter line plus body yields the same front-matter
text (hence the same parsed front-matter map) and the same body as the
original split.  The amendment excludes bodies with a trailing newline,
where the rejoining of lines inside `split_front_matter` drops the final
newline (see the counterexample). -/
theorem claim_C5_amended (d : Char) (source dl : List Char)
    (first : List Char) (rest : List (List Char))
    (hlines : linesOf source = first :: rest)
    (hfm : isDelimLine d first = true)
    (hclose : ∃ l ∈ rest, isDelimLine d l = true)
    (hbody : (split_front_matter d source).2.getLast? ≠ some '\n')
    (hdl : isDelimLine d dl = true) :
    split_front_matter d
        (dl ++ '\n' :: ((split_front_matter d source).1
          ++ dl ++ '\n' :: (split_front_matter d source).2))
      = split_front_matter d source := by
  obtain ⟨after, hafter⟩ := fmLoop_close d rest hclose
  obtain ⟨fm, hfl⟩ : ∃ fm, fmLoop d rest = (fm, some after) :=
    ⟨(fmLoop d rest).1, Prod.ext rfl hafter⟩
  have hsplit : split_front_matter d source = (fm, intercalateNL after) := by
    simp only [split_front_matter, hlines, if_pos hfm, hfl]
  have hfirst_nn : '\n' ∉ first :=
    mem_linesOf_no_newline source first (by rw [hlines]; exact List.mem_cons_self _ _)
  have hrest_nn : ∀ l ∈ rest, '\n' ∉ l := fun l hl =>
    mem_linesOf_no_newline source l (by rw [hlines]; exact List.mem_cons.mpr (Or.inr hl))
  have hd_ne : d ≠ '\n' := by
    intro hd_eq
    rcases hfirst : first with _ | ⟨a, l⟩
    · rw [hfirst] at hfm; simp [isDelimLine] at hfm
    · rw [hfirst] at hfm
      simp only [isDelimLine, Bool.and_eq_true, List.all_eq_true,
        decide_eq_true_eq] at hfm
      have ha : a = d := hfm.2 a (List.mem_cons_self _ _)
      apply hfirst_nn
      rw [hfirst, ← hd_eq, ← ha]
      exact List.mem_cons_self _ _
  have hdl_nn : '\n' ∉ dl := by
    intro hmem
    simp only [isDelimLine, Bool.and_eq_true, List.all_eq_true,
      decide_eq_true_eq] at hdl
    exact hd_ne (hdl.2 '\n' hmem).symm
  have hround := fmLoop_roundtrip d dl (intercalateNL after) hdl hdl_nn rest
    hrest_nn fm after hfl
  have hb2 : (intercalateNL after).getLast? ≠ some '\n' := by
    rw [hsplit] at hbody; exact hbody
  rw [hsplit]
  have hlines2 : linesOf (dl ++ '\n'
        :: (fm ++ dl ++ '\n' :: intercalateNL after))
      = dl :: linesOf (fm ++ dl ++ '\n' :: intercalateNL after) :=
    linesOf_append_newline _ _ hdl_nn
  simp only [split_front_matter, hlines2, if_pos hdl, hround]
  rw [intercalateNL_linesOf _ hb2]

theorem claim_C5_amended_witness :
    (linesOf ("+\na=1\n++\nb").toList
        = [['+'], ['a', '=', '1'], ['+', '+'], ['b']] ∧
     isDelimLine '+' ['+'] = true ∧
     (∃ l ∈ [['a', '=', '1'], ['+', '+'], ['b']], isDelimLine '+' l = true) ∧
     (split_front_matter '+' ("+\na=1\n++\nb").toList).2.getLast? ≠ some '\n' ∧
     isDelimLine '+' ['+'] = true) ∧
    split_front_matter '+'
        (['+'] ++ '\n' :: ((split_front_matter '+' ("+\na=1\n++\nb").toList).1
          ++ ['+'] ++ '\n' :: (split_front_matter '+' ("+\na=1\n++\nb").toList).2))
      = split_front_matter '+' ("+\na=1\n++\nb").toList :=
  ⟨⟨by decide, by decide, by decide, by decide, by decide⟩,
   claim_C5_amended '+' (("+\na=1\n++\nb").toList) ['+'] ['+']
     [['a', '=', '1'], ['+', '+'], ['b']]
     (by decide) (by decide) (by decide) (by decide) (by decide)⟩

end Lamya

namespace Lamya

/-! ## Helper lemmas: the content tree -/

theorem Node.my_ind (P : Node → Prop)
    (hfolder : ∀ n cs idx, (∀ c ∈ cs, P c) → P (.folder n cs idx))
    (hpage : ∀ n d, P (.pageOrPost n d))
    (hagg : ∀ n ps, P (.aggregatedPage n ps))
    (hpag : ∀ n pn, P (.paginatedPage n pn)) :
    ∀ t, P t
  | .folder n cs idx =>
      hfolder n cs idx (fun c hc =>
        have : sizeOf c < sizeOf (Node.folder n cs idx) := by
          have h1 := List.sizeOf_lt_of_mem hc
          simp only [Node.folder.sizeOf_spec]
          omega
        Node.my_ind P hfolder hpage hagg hpag c)
  | .pageOrPost n d => hpage n d
  | .aggregatedPage n ps => hagg n ps
  | .paginatedPage n pn => hpag n pn
termination_by t => sizeOf t

theorem insertDesc_perm (x : Node) (l : List Node) :
    (insertDesc x l).Perm (x :: l) := by
  induction l with
  | nil => simp [insertDesc]
  | cons y ys ih =>
      rw [insertDesc]
      by_cases h : dateOf y ≤ dateOf x
      · rw [if_pos h]
      · rw [if_neg h]
        exact (List.Perm.cons y ih).trans (List.Perm.swap x y ys)

theorem pySortedByDateDesc_perm (l : List Node) :
    (pySortedByDateDesc l).Perm l := by
  induction l with
  | nil => simp [pySortedByDateDesc]
  | cons x xs ih =>
      rw [pySortedByDateDesc]
      exact (insertDesc_perm _ _).trans (List.Perm.cons x ih)

theorem insertDesc_pairwise (x : Node) (l : List Node)
    (h : l.Pairwise (fun a b => dateOf b ≤ dateOf a)) :
    (insertDesc x l).Pairwise (fun a b => dateOf b ≤ dateOf a) := by
  induction l with
  | nil => simp [insertDesc]
  | cons y ys ih =>
      rw [insertDesc]
      rcases List.pairwise_cons.mp h with ⟨hy, hys⟩
      by_cases hc : dateOf y ≤ dateOf x
      · rw [if_pos hc]
        refine List.pairwise_cons.mpr ⟨?_, h⟩
        intro z hz
        rcases List.mem_cons.mp hz with he | he
        · subst he; exact hc
        · exact le_trans (hy z he) hc
      · rw [if_neg hc]
        refine List.pairwise_cons.mpr ⟨?_, ih hys⟩
        intro z hz
        have := (insertDesc_perm x ys).mem_iff.mp hz
        rcases List.mem_cons.mp this with he | he
        · subst he; omega
        · exact hy z he

theorem pySortedByDateDesc_pairwise (l : List Node) :
    (pySortedByDateDesc l).Pairwise (fun a b => dateOf b ≤ dateOf a) := by
  induction l with
  | nil => simp [pySortedByDateDesc]
  | cons x xs ih => exact insertDesc_pairwise x _ ih

theorem aggStep_name (wl bl : List String) (p : String) (t : Node) :
    nameOf (aggStep wl bl p t) = nameOf t := by
  cases t <;> simp [aggStep, nameOf]

theorem aggStepList_eq_map (wl bl : List String) (p : String) (cs : List Node) :
    aggStepList wl bl p cs
      = cs.map (fun c => aggStep wl bl (joinPath p (nameOf c)) c) := by
  induction cs with
  | nil => rfl
  | cons c cs ih => simp [aggStepList, ih]

theorem aggStep_descend (wl bl : List String) (addr : List Nat) :
    ∀ (t : Node) (p q : String) (nd : Node),
      descend p t addr = some (q, nd) →
      ∃ nd', descend p (aggStep wl bl p t) addr = some (q, nd') ∧
        aggClaimAt wl bl true q nd nd' := by
  induction addr with
  | nil =>
      intro t p q nd h
      simp only [descend, Option.some.injEq, Prod.mk.injEq] at h
      obtain ⟨hq, hnd⟩ := h
      subst hq
      subst hnd
      refine ⟨aggStep wl bl p t, rfl, ?_⟩
      cases t with
      | folder n cs idx =>
          simp only [aggStep]
          refine ⟨aggStepList wl bl p cs, _, rfl, ?_, ?_⟩
          · rw [aggStepList_eq_map, List.length_map]
          · by_cases hsel : (idx.isNone && selectFolder wl bl n p) = true
            · have hsel' : (true && idx.isNone && selectFolder wl bl n p) = true := by
                simpa using hsel
              rw [if_pos hsel', if_pos hsel]
              exact ⟨pySortedByDateDesc (cs.filter isPageOrPost), rfl,
                pySortedByDateDesc_perm _, pySortedByDateDesc_pairwise _⟩
            · have hsel' : ¬(true && idx.isNone && selectFolder wl bl n p) = true := by
                simpa using hsel
              rw [if_neg hsel', if_neg hsel]
      | pageOrPost n d => exact rfl
      | aggregatedPage n ps => exact rfl
      | paginatedPage n pn => exact rfl
  | cons i rest ih =>
      intro t p q nd h
      cases t with
      | folder n cs idx =>
          simp only [descend, childrenOf] at h
          cases hci : cs[i]? with
          | none => rw [hci] at h; simp at h
          | some c =>
              rw [hci] at h
              obtain ⟨nd', hd, hcl⟩ := ih c (joinPath p (nameOf c)) q nd h
              refine ⟨nd', ?_, hcl⟩
              simp only [aggStep, descend, childrenOf]
              rw [aggStepList_eq_map, List.getElem?_map, hci, Option.map_some']
              show descend
                  (joinPath p (nameOf (aggStep wl bl (joinPath p (nameOf c)) c)))
                  (aggStep wl bl (joinPath p (nameOf c)) c) rest = some (q, nd')
              rw [aggStep_name]
              exact hd
      | pageOrPost n d => simp [descend, childrenOf] at h
      | aggregatedPage n ps => simp [descend, childrenOf] at h
      | paginatedPage n pn => simp [descend, childrenOf] at h

/-! ## Claim C3: local aggregation -/

/-- Claim C3: after the local-aggregation pass, the node reached by any
child-index path of the original tree is still reached by the same path at
the same folder path string, and: a non-root folder that had no index page
and passes the whitelist and blacklist selection now has as its index page
an `AggregatedPage` (of the folder's name) whose post list is a permutation
of the folder's direct `PageOrPost` children sorted by resolved publish date
descending; every other folder keeps its index slot and its name and number
of children; every non-folder node is unchanged — so no other node of the
tree is modified by this pass. -/
theorem claim_C3 (wl bl : List String) (t : Node) (addr : List Nat)
    (q : String) (nd : Node)
    (h : descend "/" t addr = some (q, nd)) :
    ∃ nd', descend "/" (aggregate_posts_local wl bl t) addr = some (q, nd') ∧
      aggClaimAt wl bl (!addr.isEmpty) q nd nd' := by
  cases addr with
  | nil =>
      simp only [descend, Option.some.injEq, Prod.mk.injEq] at h
      obtain ⟨hq, hnd⟩ := h
      subst hq
      subst hnd
      refine ⟨aggregate_posts_local wl bl t, rfl, ?_⟩
      cases t with
      | folder n cs idx =>
          simp only [aggregate_posts_local, aggClaimAt]
          refine ⟨aggStepList wl bl "/" cs, idx, rfl, ?_, ?_⟩
          · rw [aggStepList_eq_map, List.length_map]
          · have hfalse : ¬((!(List.isEmpty (α := Nat) []))
                && idx.isNone && selectFolder wl bl n "/") = true := by
              simp
            rw [if_neg hfalse]
      | pageOrPost n d => simp [aggregate_posts_local, aggClaimAt]
      | aggregatedPage n ps => simp [aggregate_posts_local, aggClaimAt]
      | paginatedPage n pn => simp [aggregate_posts_local, aggClaimAt]
  | cons i rest =>
      cases t with
      | folder n cs idx =>
          simp only [descend, childrenOf] at h
          cases hci : cs[i]? with
          | none => rw [hci] at h; simp at h
          | some c =>
              rw [hci] at h
              obtain ⟨nd', hd, hcl⟩ := aggStep_descend wl bl rest c
                (joinPath "/" (nameOf c)) q nd h
              refine ⟨nd', ?_, ?_⟩
              · simp only [aggregate_posts_local, descend, childrenOf]
                rw [aggStepList_eq_map, List.getElem?_map, hci, Option.map_some']
                show descend
                    (joinPath "/" (nameOf (aggStep wl bl (joinPath "/" (nameOf c)) c)))
                    (aggStep wl bl (joinPath "/" (nameOf c)) c) rest = some (q, nd')
                rw [aggStep_name]
                exact hd
              · simpa using hcl
      | pageOrPost n d => simp [descend, childrenOf] at h
      | aggregatedPage n ps => simp [descend, childrenOf] at h
      | paginatedPage n pn => simp [descend, childrenOf] at h

theorem claim_C3_witness :
    descend "/" (Node.folder "/"
        [Node.folder "blog" [Node.pageOrPost "a" 1, Node.pageOrPost "b" 2] none]
        none) [0]
      = some ("/blog",
          Node.folder "blog" [Node.pageOrPost "a" 1, Node.pageOrPost "b" 2] none) ∧
    (∃ nd', descend "/" (aggregate_posts_local [] []
        (Node.folder "/"
          [Node.folder "blog" [Node.pageOrPost "a" 1, Node.pageOrPost "b" 2] none]
          none)) [0]
      = some ("/blog", nd') ∧
      aggClaimAt [] [] (!(List.isEmpty ([0] : List Nat))) "/blog"
        (Node.folder "blog" [Node.pageOrPost "a" 1, Node.pageOrPost "b" 2] none)
        nd') :=
  ⟨rfl,
   claim_C3 [] []
     (Node.folder "/"
       [Node.folder "blog" [Node.pageOrPost "a" 1, Node.pageOrPost "b" 2] none]
       none)
     [0] "/blog"
     (Node.folder "blog" [Node.pageOrPost "a" 1, Node.pageOrPost "b" 2] none)
     rfl⟩

end Lamya

namespace Lamya

/-! ## Claims C6, C7: filtering -/

theorem filterChildren_true (iip recursive : Bool) (cs : List Node)
    (hcs : ∀ c ∈ cs, ∀ r : Bool, filter_in_place (fun _ => true) iip r c = c) :
    filterChildren (fun _ => true) iip recursive cs = cs := by
  induction cs with
  | nil => rfl
  | cons c cs ih =>
      have hc := hcs c (List.mem_cons_self _ _)
      have hrest := ih (fun c hc r => hcs c (List.mem_cons.mpr (Or.inr hc)) r)
      cases c with
      | folder n cs2 idx =>
          cases recursive <;> simp [filterChildren, hc, hrest]
      | pageOrPost n d => simp [filterChildren, hrest]
      | aggregatedPage n ps => simp [filterChildren, hrest]
      | paginatedPage n pn => simp [filterChildren, hrest]

theorem filter_in_place_true (t : Node) :
    ∀ iip recursive : Bool,
      filter_in_place (fun _ => true) iip recursive t = t := by
  induction t using Node.my_ind with
  | hfolder n cs idx ih =>
      intro iip recursive
      have hkids := filterChildren_true iip recursive cs (fun c hc r => ih c hc iip r)
      show filter_in_place (fun _ => true) iip recursive (.folder n cs idx)
          = .folder n cs idx
      simp only [filter_in_place, hkids]
      cases idx <;> simp
  | hpage n d => intro _ _; rfl
  | hagg n ps => intro _ _; rfl
  | hpag n pn => intro _ _; rfl

/-- Claim C6: filtering any tree with a predicate that accepts every node
returns a tree equal to the original, for any flag combination; and `filter`
never mutates the tree it is called on: it is, for every predicate, the
in-place filter applied to a deep copy of the receiver, the receiver value
itself staying untouched in this pure embedding. -/
theorem claim_C6 (t : Node) (iip recursive : Bool) (f : Node → Bool) :
    Folder.filter (fun _ => true) iip recursive t = t ∧
    Folder.filter f iip recursive t
      = filter_in_place f iip recursive (deepcopy t) :=
  ⟨filter_in_place_true t iip recursive, rfl⟩

theorem mem_filterChildren_of_kept (f : Node → Bool) (iip : Bool)
    (cs : List Node) (c : Node) (hc : c ∈ cs) (hf : isFolder c = true)
    (hkeep : ¬(f (filter_in_place f iip true c) = false ∧
      childrenOf (filter_in_place f iip true c) = [])) :
    filter_in_place f iip true c ∈ filterChildren f iip true cs := by
  induction cs with
  | nil => simp at hc
  | cons c0 cs ih =>
      rcases List.mem_cons.mp hc with he | he
      · subst he
        cases c with
        | folder n cs2 idx =>
            have hcond : (!(f (filter_in_place f iip true (Node.folder n cs2 idx)))
                && (childrenOf (filter_in_place f iip true (Node.folder n cs2 idx))).isEmpty)
                = false := by
              rw [Bool.and_eq_false_iff]
              by_cases hfc : f (filter_in_place f iip true (Node.folder n cs2 idx)) = false
              · right
                have hne : ¬((childrenOf (filter_in_place f iip true
                    (Node.folder n cs2 idx))).isEmpty = true) := fun hb =>
                  hkeep ⟨hfc, List.isEmpty_iff.mp hb⟩
                exact Bool.not_eq_true _ ▸ hne
              · left
                cases hval : f (filter_in_place f iip true (Node.folder n cs2 idx)) with
                | false => exact absurd hval hfc
                | true => simp [hval]
            simp [filterChildren, hcond]
        | pageOrPost n d => simp [isFolder] at hf
        | aggregatedPage n ps => simp [isFolder] at hf
        | paginatedPage n pn => simp [isFolder] at hf
      · cases c0 <;>
          · simp only [filterChildren]
            exact List.mem_append_right _ (ih he)

/-- Claim C7: the (default, recursive) in-place filter never removes a folder
child outright while that folder — after its own subtree has been filtered —
still has children, even when the folder itself fails the predicate: such a
folder is still a member of the filtered children list.  Conversely, a folder
child missing from the filtered children list must have failed the predicate
and ended up with no children: a folder is pruned only when it is empty and
failing. -/
theorem claim_C7 (f : Node → Bool) (iip : Bool) (t c : Node)
    (hc : c ∈ childrenOf t) (hf : isFolder c = true) :
    (childrenOf (filter_in_place f iip true c) ≠ [] →
      filter_in_place f iip true c ∈ childrenOf (filter_in_place f iip true t)) ∧
    (filter_in_place f iip true c ∉ childrenOf (filter_in_place f iip true t) →
      f (filter_in_place f iip true c) = false ∧
      childrenOf (filter_in_place f iip true c) = []) := by
  cases t with
  | folder n cs idx =>
      have hkids : childrenOf (filter_in_place f iip true (Node.folder n cs idx))
          = filterChildren f iip true cs := by
        simp [filter_in_place, childrenOf]
      constructor
      · intro hne
        rw [hkids]
        exact mem_filterChildren_of_kept f iip cs c hc hf (fun hk => hne hk.2)
      · intro hnotmem
        by_cases hk : f (filter_in_place f iip true c) = false ∧
            childrenOf (filter_in_place f iip true c) = []
        · exact hk
        · exact absurd (hkids ▸ mem_filterChildren_of_kept f iip cs c hc hf hk) hnotmem
  | pageOrPost n d => simp [childrenOf] at hc
  | aggregatedPage n ps => simp [childrenOf] at hc
  | paginatedPage n pn => simp [childrenOf] at hc

theorem claim_C7_witness :
    (Node.folder "sub" [Node.pageOrPost "a" 1] none
        ∈ childrenOf (Node.folder "/"
            [Node.folder "sub" [Node.pageOrPost "a" 1] none] none) ∧
     isFolder (Node.folder "sub" [Node.pageOrPost "a" 1] none) = true) ∧
    ((childrenOf (filter_in_place isPageOrPost true true
        (Node.folder "sub" [Node.pageOrPost "a" 1] none)) ≠ [] →
      filter_in_place isPageOrPost true true
          (Node.folder "sub" [Node.pageOrPost "a" 1] none)
        ∈ childrenOf (filter_in_place isPageOrPost true true
            (Node.folder "/" [Node.folder "sub" [Node.pageOrPost "a" 1] none] none))) ∧
     (filter_in_place isPageOrPost true true
          (Node.folder "sub" [Node.pageOrPost "a" 1] none)
        ∉ childrenOf (filter_in_place isPageOrPost true true
            (Node.folder "/" [Node.folder "sub" [Node.pageOrPost "a" 1] none] none)) →
      isPageOrPost (filter_in_place isPageOrPost true true
          (Node.folder "sub" [Node.pageOrPost "a" 1] none)) = false ∧
      childrenOf (filter_in_place isPageOrPost true true
          (Node.folder "sub" [Node.pageOrPost "a" 1] none)) = [])) :=
  ⟨⟨List.mem_cons_self _ _, rfl⟩,
   claim_C7 isPageOrPost true
     (Node.folder "/" [Node.folder "sub" [Node.pageOrPost "a" 1] none] none)
     (Node.folder "sub" [Node.pageOrPost "a" 1] none)
     (List.mem_cons_self _ _) rfl⟩

/-! ## Claims C4, C8, C9: behaviour at concrete inputs -/

/-- Claim C4 evaluation, showing a code bug: in a heap where folder 0 holds
node 2 as its index page and folder 1 exists, assigning node 2 as folder 1's
index page raises `AttributeError` instead of detaching node 2 from folder 0:
line 205 of content_tree.py re-enters the setter with Python `None`, whose
first step `new_index_page.parent` dereferences `None`.  The two other
detach paths behave as the claim says: a normal child is removed from its
old parent's children before being attached, and a parentless node is
attached directly. -/
theorem claim_C4 :
    setIndexPage ⟨[(2, 0)], [(0, []), (1, [])], [(0, 2)]⟩ 1 (some 2)
      = .error .attributeError ∧
    setIndexPage ⟨[(2, 0)], [(0, [2]), (1, [])], []⟩ 1 (some 2)
      = .ok ⟨[(2, 1)], [(0, []), (1, [])], [(1, 2)]⟩ ∧
    setIndexPage ⟨[], [(0, []), (1, [])], []⟩ 1 (some 2)
      = .ok ⟨[(2, 1)], [(0, []), (1, [])], [(1, 2)]⟩ :=
  ⟨rfl, rfl, rfl⟩

/-- Claim C8 evaluation, showing a code bug: on a folder with a single leaf
child named `post1`, `get("post1/extra")` returns the leaf even though the
segment `extra` was never resolved, instead of raising the `LookupError`
promised by the claim and by the method's own docstring; a first segment
that matches no child does raise. -/
theorem claim_C8 :
    Folder.get (.folder "blog" [.pageOrPost "post1" 5] none) ["post1", "extra"]
      = .ok (.pageOrPost "post1" 5) ∧
    Folder.get (.folder "blog" [.pageOrPost "post1" 5] none) ["nope"]
      = .error ["nope"] :=
  ⟨rfl, rfl⟩

/-- Claim C9 evaluation, showing a code bug: constructing a `SiteGenerator`
with both global aggregation lists non-empty passes the constructor's only
whitelist-against-blacklist validation (no `AggregateError`), although the
constructor's docstring says only one of the two may be specified; the local
pair does raise. -/
theorem claim_C9 :
    checkAggregateConfig [] [] ["news"] ["blog"] = .ok () ∧
    checkAggregateConfig ["news"] ["blog"] [] [] = .error "AggregateError" :=
  ⟨rfl, rfl⟩

end Lamya
